import Mathlib

/-
  Verification of the sunbeam path tracer core (src/trace.rs, src/material.rs,
  src/random.rs, src/main.rs) against its natural-language specification.

  Modelling conventions:
  * f32 values are modelled as real numbers; f32 square root, cube root and
    tangent become Real.sqrt, rpow 1/3 and Real.tan.
  * f32::INFINITY, passed for the upper search bound by the integrator, is
    modelled by working with upper bounds in WithTop Real.
  * Randomness is externalised: every random draw a Rust function makes from
    thread_rng becomes an explicit argument of the Lean function.
-/

namespace Sunbeam

open Classical

/-- Three-component real vector, modelling the f32 Vec3 of the ultraviolet
crate used throughout the tracer. -/
structure Vec3 where
  x : ℝ
  y : ℝ
  z : ℝ

namespace Vec3

instance : Zero Vec3 := ⟨⟨0, 0, 0⟩⟩

instance : Add Vec3 := ⟨fun a b => ⟨a.x + b.x, a.y + b.y, a.z + b.z⟩⟩

instance : Sub Vec3 := ⟨fun a b => ⟨a.x - b.x, a.y - b.y, a.z - b.z⟩⟩

instance : Neg Vec3 := ⟨fun a => ⟨-a.x, -a.y, -a.z⟩⟩

/-- Componentwise product, as ultraviolet defines Vec3 * Vec3. -/
instance : Mul Vec3 := ⟨fun a b => ⟨a.x * b.x, a.y * b.y, a.z * b.z⟩⟩

/-- Scalar multiplication f32 * Vec3 (and Vec3 * f32, which is the same
componentwise product). -/
instance : SMul ℝ Vec3 := ⟨fun r v => ⟨r * v.x, r * v.y, r * v.z⟩⟩

/-- Componentwise division of a vector by a scalar, Vec3 / f32. -/
noncomputable instance : HDiv Vec3 ℝ Vec3 := ⟨fun v r => ⟨v.x / r, v.y / r, v.z / r⟩⟩

/-- Vec3::one, used as Color::one for the dielectric attenuation. -/
def one : Vec3 := ⟨1, 1, 1⟩

/-- Dot product. -/
def dot (a b : Vec3) : ℝ := a.x * b.x + a.y * b.y + a.z * b.z

/-- Cross product. -/
def cross (a b : Vec3) : Vec3 :=
  ⟨a.y * b.z - a.z * b.y, a.z * b.x - a.x * b.z, a.x * b.y - a.y * b.x⟩

/-- Squared magnitude. -/
def mag_sq (v : Vec3) : ℝ := v.dot v

/-- Magnitude. -/
noncomputable def mag (v : Vec3) : ℝ := Real.sqrt v.mag_sq

/-- ultraviolet normalized: the vector divided componentwise by its
magnitude. -/
noncomputable def normalized (v : Vec3) : Vec3 := v / v.mag

/-- ultraviolet reflected: mirror reflection of v about the normal n,
v - 2 (v . n) n. -/
def reflected (v n : Vec3) : Vec3 := v - (2 * v.dot n) • n

/-- Componentwise absolute value. -/
def abs (v : Vec3) : Vec3 := ⟨|v.x|, |v.y|, |v.z|⟩

/-- Largest component. -/
def component_max (v : Vec3) : ℝ := max v.x (max v.y v.z)

/-- ultraviolet refracted (an assumed vector-math primitive of the external
crate, per the spec): the GLSL-style refraction of incident vector i through
normal n with refraction factor eta, returning zero on total internal
reflection. -/
noncomputable def refracted (i n : Vec3) (eta : ℝ) : Vec3 :=
  let ndi := n.dot i
  let k := 1 - eta * eta * (1 - ndi * ndi)
  if k < 0 then 0 else eta • i - (eta * ndi + Real.sqrt k) • n

end Vec3

/-- Colors are Vec3, as in main.rs. -/
abbrev Color := Vec3

/-- A ray with origin and direction (src/trace.rs). -/
structure Ray where
  origin : Vec3
  dir : Vec3

/-- Ray::at: the point origin + dir * t. -/
def Ray.at (r : Ray) (t : ℝ) : Vec3 := r.origin + t • r.dir

/-- An intersection record (src/trace.rs). -/
structure Hit where
  p : Vec3
  t : ℝ
  normal : Vec3

/-- Hit::front_facing (invoked as hit.front by its consumers): true when the
dot product of the stored normal with the ray direction is positive. -/
def Hit.front_facing (h : Hit) (r : Ray) : Prop := 0 < h.normal.dot r.dir

/-- A sphere (src/trace.rs). -/
structure Sphere where
  center : Vec3
  radius : ℝ

namespace Sphere

/-- The vector sep = origin - center of Sphere::probe. -/
def sep (s : Sphere) (r : Ray) : Vec3 := r.origin - s.center

/-- The half-b coefficient hb = sep . dir of Sphere::probe. -/
def qhb (s : Sphere) (r : Ray) : ℝ := (s.sep r).dot r.dir

/-- The constant coefficient c = sep . sep - radius^2 of Sphere::probe. -/
def qc (s : Sphere) (r : Ray) : ℝ := (s.sep r).dot (s.sep r) - s.radius * s.radius

/-- The discriminant hb * hb - a * c of Sphere::probe, with a = |dir|^2. -/
def discrim (s : Sphere) (r : Ray) : ℝ :=
  s.qhb r * s.qhb r - r.dir.mag_sq * s.qc r

/-- The smaller candidate root (-hb - sqrt d) / a of Sphere::probe. -/
noncomputable def root1 (s : Sphere) (r : Ray) : ℝ :=
  (-s.qhb r - Real.sqrt (s.discrim r)) / r.dir.mag_sq

/-- The larger candidate root (-hb + sqrt d) / a of Sphere::probe. -/
noncomputable def root2 (s : Sphere) (r : Ray) : ℝ :=
  (-s.qhb r + Real.sqrt (s.discrim r)) / r.dir.mag_sq

/-- Sphere::probe. The upper search bound lives in WithTop Real so that the
f32::INFINITY that the integrator passes is representable. -/
noncomputable def probe (s : Sphere) (r : Ray) (t_min : ℝ) (t_max : WithTop ℝ) :
    Option Hit :=
  if s.discrim r < 0 then none
  else if s.root1 r < t_min ∨ t_max < (↑(s.root1 r) : WithTop ℝ) then
    if s.root2 r < t_min ∨ t_max < (↑(s.root2 r) : WithTop ℝ) then none
    else some ⟨r.at (s.root2 r), s.root2 r, (r.at (s.root2 r) - s.center) / s.radius⟩
  else some ⟨r.at (s.root1 r), s.root1 r, (r.at (s.root1 r) - s.center) / s.radius⟩

/-- The mathematical intersection predicate: the point of the ray at
parameter t lies on the sphere's surface. -/
def intersectsAt (s : Sphere) (r : Ray) (t : ℝ) : Prop :=
  (r.at t - s.center).dot (r.at t - s.center) = s.radius * s.radius

/-- A true intersection parameter inside the closed search window. -/
def hitWithin (s : Sphere) (r : Ray) (t_min : ℝ) (t_max : WithTop ℝ)
    (t : ℝ) : Prop :=
  t_min ≤ t ∧ (↑t : WithTop ℝ) ≤ t_max ∧ s.intersectsAt r t

end Sphere

/-- The result of Material::scatter (src/material.rs). -/
inductive ScatteringResult where
  | Scattered (ray : Ray) (attenuation : Color)
  | Absorbed

/-- Lambertian material (src/material.rs). -/
structure Lambertian where
  albedo : Color

/-- Lambertian::scatter. The uniform-on-sphere draw the Rust code takes from
thread_rng is the explicit argument S. -/
noncomputable def Lambertian.scatter (l : Lambertian) (incoming_ray : Ray)
    (hit : Hit) (S : Vec3) : ScatteringResult :=
  let scatter_dir := hit.normal + S
  let scatter_dir := if scatter_dir.mag < 1 / 100000000 then hit.normal else scatter_dir
  .Scattered ⟨hit.p, scatter_dir⟩ l.albedo

/-- Metallic material (src/material.rs). -/
structure Metallic where
  albedo : Color
  roughness : ℝ

/-- Metallic::scatter. The uniform-in-unit-ball draw the Rust code takes from
thread_rng is the explicit argument S. -/
noncomputable def Metallic.scatter (m : Metallic) (incoming_ray : Ray)
    (hit : Hit) (S : Vec3) : ScatteringResult :=
  let refl := (incoming_ray.dir.normalized.reflected hit.normal) + m.roughness • S
  if refl.dot hit.normal < 0 then .Absorbed
  else .Scattered ⟨hit.p, refl⟩ m.albedo

/-- Dielectric material (src/material.rs). -/
structure Dielectric where
  ior : ℝ

/-- f32::EPSILON, the machine epsilon 2^-23 of single precision. -/
noncomputable def f32_EPSILON : ℝ := 1 / 2 ^ (23 : ℕ)

/-- The free function reflectance of src/material.rs (Schlick approximation).
The Rust powf(5.0) is a natural power here since its base 1 - cosine is
nonnegative (cosine is clamped to at most 1). -/
noncomputable def reflectance (v normal : Vec3) (eta : ℝ) : ℝ :=
  let cosine := min ((-normal).dot v) 1
  let r0 := ((1 - eta) / (1 + eta)) * ((1 - eta) / (1 + eta))
  r0 + (1 - r0) * (1 - cosine) ^ (5 : ℕ)

/-- The refraction-ratio local of Dielectric::scatter: 1/ior when the hit is
front_facing for the incoming ray, ior otherwise. -/
noncomputable def Dielectric.eta (d : Dielectric) (incoming_ray : Ray) (hit : Hit) : ℝ :=
  if hit.front_facing incoming_ray then 1 / d.ior else d.ior

/-- The normal local n of Dielectric::scatter: the stored hit normal when the
hit is front_facing, its negation otherwise. -/
noncomputable def Dielectric.flipNormal (incoming_ray : Ray) (hit : Hit) : Vec3 :=
  if hit.front_facing incoming_ray then hit.normal else -hit.normal

/-- Dielectric::scatter. The uniform(0,1) draw used by the Schlick test is
the explicit argument u. -/
noncomputable def Dielectric.scatter (d : Dielectric) (incoming_ray : Ray)
    (hit : Hit) (u : ℝ) : ScatteringResult :=
  let attenuation := Vec3.one
  let n := Dielectric.flipNormal incoming_ray hit
  let e := d.eta incoming_ray hit
  let scatter0 := (incoming_ray.dir.normalized).refracted n e
  let scatter :=
    if scatter0.abs.component_max ≤ f32_EPSILON ∨
        u ≤ reflectance incoming_ray.dir.normalized n e then
      (incoming_ray.dir.normalized).reflected hit.normal
    else scatter0
  .Scattered ⟨hit.p, scatter⟩ attenuation

/-- The closed set of material variants of the scene (spec section 9 models
the trait objects of the source as a tagged variant type). -/
inductive Material where
  | lambertian (l : Lambertian)
  | metallic (m : Metallic)
  | dielectric (d : Dielectric)

/-- One scatter call's worth of random draws: the vector sample (on-sphere
for Lambertian, in-ball for Metallic) and the uniform draw (Dielectric). -/
structure ScatterDraws where
  S : Vec3
  u : ℝ

/-- Dynamic dispatch of Material::scatter over the variants. -/
noncomputable def Material.scatter : Material → Ray → Hit → ScatterDraws → ScatteringResult
  | .lambertian l, r, h, dr => l.scatter r h dr.S
  | .metallic m, r, h, dr => m.scatter r h dr.S
  | .dielectric d, r, h, dr => d.scatter r h dr.u

/-- The scene: index-aligned lists of geometry and materials (src/trace.rs). -/
structure Scene where
  objects : List Sphere
  materials : List Material

/-- The loop body of Scene::probe: iterate the zipped entries, narrowing the
upper bound to the t of the closest hit found so far. -/
noncomputable def Scene.probeLoop (r : Ray) (t_min : ℝ) :
    List (Sphere × Material) → WithTop ℝ → Option (Hit × Material) →
      Option (Hit × Material)
  | [], _, current_hit => current_hit
  | (o, m) :: rest, closest, current_hit =>
    match o.probe r t_min closest with
    | some hit => Scene.probeLoop r t_min rest (↑hit.t) (some (hit, m))
    | none => Scene.probeLoop r t_min rest closest current_hit

/-- Scene::probe. -/
noncomputable def Scene.probe (sc : Scene) (r : Ray) (t_min : ℝ)
    (t_max : WithTop ℝ) : Option (Hit × Material) :=
  Scene.probeLoop r t_min (sc.objects.zip sc.materials) t_max none

/-- The recursive radiance integrator color_ray of src/main.rs. Randomness
is externalised as a stream rnd indexed by the remaining depth after the
bounce; the log parameter of the source only prints and is omitted. The
source guard depth <= 0 on a usize is the 0 pattern here. -/
noncomputable def color_ray (rnd : ℕ → ScatterDraws) (scene : Scene) :
    Ray → ℕ → Color
  | _, 0 => 0
  | incoming_ray, k + 1 =>
    match scene.probe incoming_ray (1 / 1000) ⊤ with
    | some (hit, material) =>
      match material.scatter incoming_ray hit (rnd k) with
      | .Scattered ray attenuation => attenuation * color_ray rnd scene ray k
      | .Absorbed => 0
    | none =>
      let t := (1 / 2 : ℝ) * (incoming_ray.dir.normalized.y + 1)
      (1 - t) • Vec3.one + t • (⟨1 / 2, 7 / 10, 1⟩ : Vec3)

/-- f32::cbrt, the real cube root on the nonnegative inputs it receives. -/
noncomputable def cbrt (x : ℝ) : ℝ := x ^ ((1 : ℝ) / 3)

/-- The UniformOnSphere sample of src/random.rs as a function of the vector
g of three standard-normal draws: normalize g. -/
noncomputable def uniformOnSphere (g : Vec3) : Vec3 := g.normalized

/-- The UniformInSphere sample of src/random.rs as a function of the
uniform(0,1) draw u and the vector g of three standard-normal draws: the
source normalizes g and then divides the result by the cube root of u. -/
noncomputable def uniformInSphere (u : ℝ) (g : Vec3) : Vec3 :=
  g.normalized / cbrt u

/-- The thin-lens camera of src/main.rs. -/
structure Camera where
  origin : Vec3
  horiz : Vec3
  vert : Vec3
  lower_left : Vec3
  u : Vec3
  v : Vec3
  w : Vec3
  lens_radius : ℝ

/-- Camera::new. The Rust parameter named from is from_ here (reserved word);
scalar factors are collected on the left of the basis vectors. -/
noncomputable def Camera.new (aspect fovy aperture focus_dist : ℝ)
    (from_ to_ up : Vec3) : Camera :=
  let fovyr := fovy * Real.pi / 180
  let viewport_height := 2 * Real.tan (fovyr / 2)
  let viewport_width := aspect * viewport_height
  let w := (from_ - to_).normalized
  let u := (up.cross w).normalized
  let v := w.cross u
  let origin := from_
  let horiz := (viewport_width * focus_dist) • u
  let vert := (viewport_height * focus_dist) • v
  let lower_left := origin - horiz / (2 : ℝ) - vert / (2 : ℝ) - focus_dist • w
  ⟨origin, horiz, vert, lower_left, u, v, w, aperture / 2⟩

/-- Camera::ray for screen coordinates su, sv. The uniform-in-unit-disc draw
(whose sampler is referenced by main.rs but absent from src/random.rs) is the
explicit argument lens, quantified over all values by the consumers here. -/
noncomputable def Camera.ray (c : Camera) (su sv : ℝ) (lens : Vec3) : Ray :=
  let lenspos := c.lens_radius • lens
  let offset := lenspos.x • c.u + lenspos.y • c.v
  ⟨c.origin + offset,
   c.lower_left + su • c.horiz + sv • c.vert - c.origin - offset⟩

/-- Concrete test fixture: the unit sphere at the world origin. -/
def unitSphere : Sphere := ⟨0, 1⟩

/-- Concrete test fixture: a ray from (2,0,0) toward the world origin. -/
def rayX : Ray := ⟨⟨2, 0, 0⟩, ⟨-1, 0, 0⟩⟩

/-- The hit Sphere::probe produces for unitSphere and rayX: parameter 1,
point (1,0,0), normal (1,0,0). -/
def hitX : Hit := ⟨⟨1, 0, 0⟩, 1, ⟨1, 0, 0⟩⟩

/-- Concrete test fixture: a ray out of the origin along +z. -/
def rayUp : Ray := ⟨0, ⟨0, 0, 1⟩⟩

/-- Concrete test fixture: a hit whose stored normal is +z. -/
def hitUp : Hit := ⟨0, 1, ⟨0, 0, 1⟩⟩

/-- Concrete test fixture: a ray out of the origin along +x, grazing for a
normal along +z. -/
def rayPX : Ray := ⟨0, ⟨1, 0, 0⟩⟩

/-- Concrete test fixture: a one-entry scene pairing unitSphere with a white
Lambertian material. -/
def sceneX : Scene := ⟨[unitSphere], [Material.lambertian ⟨⟨1, 1, 1⟩⟩]⟩

namespace Vec3

@[simp] theorem zero_x : (0 : Vec3).x = 0 := rfl
@[simp] theorem zero_y : (0 : Vec3).y = 0 := rfl
@[simp] theorem zero_z : (0 : Vec3).z = 0 := rfl
@[simp] theorem add_x (a b : Vec3) : (a + b).x = a.x + b.x := rfl
@[simp] theorem add_y (a b : Vec3) : (a + b).y = a.y + b.y := rfl
@[simp] theorem add_z (a b : Vec3) : (a + b).z = a.z + b.z := rfl
@[simp] theorem sub_x (a b : Vec3) : (a - b).x = a.x - b.x := rfl
@[simp] theorem sub_y (a b : Vec3) : (a - b).y = a.y - b.y := rfl
@[simp] theorem sub_z (a b : Vec3) : (a - b).z = a.z - b.z := rfl
@[simp] theorem neg_x (a : Vec3) : (-a).x = -a.x := rfl
@[simp] theorem neg_y (a : Vec3) : (-a).y = -a.y := rfl
@[simp] theorem neg_z (a : Vec3) : (-a).z = -a.z := rfl
@[simp] theorem mul_x (a b : Vec3) : (a * b).x = a.x * b.x := rfl
@[simp] theorem mul_y (a b : Vec3) : (a * b).y = a.y * b.y := rfl
@[simp] theorem mul_z (a b : Vec3) : (a * b).z = a.z * b.z := rfl
@[simp] theorem smul_x (r : ℝ) (v : Vec3) : (r • v).x = r * v.x := rfl
@[simp] theorem smul_y (r : ℝ) (v : Vec3) : (r • v).y = r * v.y := rfl
@[simp] theorem smul_z (r : ℝ) (v : Vec3) : (r • v).z = r * v.z := rfl
@[simp] theorem div_x (v : Vec3) (r : ℝ) : (v / r).x = v.x / r := rfl
@[simp] theorem div_y (v : Vec3) (r : ℝ) : (v / r).y = v.y / r := rfl
@[simp] theorem div_z (v : Vec3) (r : ℝ) : (v / r).z = v.z / r := rfl

theorem ext_xyz {a b : Vec3} (hx : a.x = b.x) (hy : a.y = b.y)
    (hz : a.z = b.z) : a = b := by
  cases a; cases b; cases hx; cases hy; cases hz; rfl

theorem ext_iff_xyz {a b : Vec3} : a = b ↔ a.x = b.x ∧ a.y = b.y ∧ a.z = b.z := by
  constructor
  · rintro rfl; exact ⟨rfl, rfl, rfl⟩
  · rintro ⟨hx, hy, hz⟩; exact ext_xyz hx hy hz

theorem mag_sq_nonneg (v : Vec3) : 0 ≤ v.mag_sq := by
  simp only [mag_sq, dot]
  nlinarith [sq_nonneg v.x, sq_nonneg v.y, sq_nonneg v.z]

theorem mag_sq_pos {v : Vec3} (hv : v ≠ 0) : 0 < v.mag_sq := by
  rcases lt_or_eq_of_le (mag_sq_nonneg v) with h | h
  · exact h
  · exfalso
    apply hv
    have hx : v.x ^ 2 + v.y ^ 2 + v.z ^ 2 = 0 := by
      simp only [mag_sq, dot] at h
      nlinarith [sq_nonneg v.x, sq_nonneg v.y, sq_nonneg v.z]
    have h1 : v.x = 0 := by nlinarith [sq_nonneg v.y, sq_nonneg v.z, sq_nonneg v.x]
    have h2 : v.y = 0 := by nlinarith [sq_nonneg v.y, sq_nonneg v.z, sq_nonneg v.x]
    have h3 : v.z = 0 := by nlinarith [sq_nonneg v.y, sq_nonneg v.z, sq_nonneg v.x]
    exact ext_xyz h1 h2 h3

theorem cross_dot_right (a b : Vec3) : (a.cross b).dot b = 0 := by
  simp only [cross, dot]
  ring

theorem cross_dot_left (a b : Vec3) : (a.cross b).dot a = 0 := by
  simp only [cross, dot]
  ring

theorem zero_smul_vec (v : Vec3) : (0 : ℝ) • v = 0 := by
  apply ext_xyz <;> simp

theorem add_zero_vec (v : Vec3) : v + 0 = v := by
  apply ext_xyz <;> simp

theorem neg_dot (a b : Vec3) : (-a).dot b = -(a.dot b) := by
  simp only [dot, neg_x, neg_y, neg_z]
  ring

theorem div_dot (v : Vec3) (a : ℝ) (w : Vec3) :
    (v / a).dot w = v.dot w / a := by
  simp only [dot, div_x, div_y, div_z]
  ring

/-- The mirror reflection about a unit normal flips the sign of the normal
component: the law of reflection. -/
theorem reflected_dot (d n : Vec3) (hn : n.mag_sq = 1) :
    (d.reflected n).dot n = -(d.dot n) := by
  simp only [mag_sq, dot] at hn
  simp only [reflected, dot, sub_x, sub_y, sub_z, smul_x, smul_y, smul_z]
  linear_combination (-(2 : ℝ) * (d.x * n.x + d.y * n.y + d.z * n.z)) * hn

/-- The mirror reflection about a unit normal preserves squared magnitude. -/
theorem reflected_mag_sq (d n : Vec3) (hn : n.mag_sq = 1) :
    (d.reflected n).mag_sq = d.mag_sq := by
  simp only [mag_sq, dot] at hn
  simp only [reflected, mag_sq, dot, sub_x, sub_y, sub_z, smul_x, smul_y, smul_z]
  linear_combination ((2 * (d.x * n.x + d.y * n.y + d.z * n.z)) ^ 2) * hn

/-- Normalizing (1,0,0) is the identity on it. -/
theorem normalized_unit_x : (⟨1, 0, 0⟩ : Vec3).normalized = ⟨1, 0, 0⟩ := by
  apply ext_xyz <;>
    simp [normalized, mag, mag_sq, dot]

theorem add_dot (a b c : Vec3) : (a + b).dot c = a.dot c + b.dot c := by
  simp only [dot, add_x, add_y, add_z]
  ring

theorem sub_dot (a b c : Vec3) : (a - b).dot c = a.dot c - b.dot c := by
  simp only [dot, sub_x, sub_y, sub_z]
  ring

theorem smul_dot (r : ℝ) (a b : Vec3) : (r • a).dot b = r * a.dot b := by
  simp only [dot, smul_x, smul_y, smul_z]
  ring

theorem sub_eq_zero_iff_vec (a b : Vec3) : a - b = 0 ↔ a = b := by
  rw [ext_iff_xyz, ext_iff_xyz]
  simp only [sub_x, sub_y, sub_z, zero_x, zero_y, zero_z, sub_eq_zero]

/-- Dividing the squared magnitude under componentwise scalar division. -/
theorem div_mag_sq (w : Vec3) (a : ℝ) : (w / a).mag_sq = w.mag_sq / (a * a) := by
  simp only [mag_sq, dot, div_x, div_y, div_z]
  ring

/-- A normalized nonzero vector has unit squared magnitude. -/
theorem normalized_mag_sq {v : Vec3} (hv : v ≠ 0) : v.normalized.mag_sq = 1 := by
  have hM : 0 < v.mag_sq := mag_sq_pos hv
  have hs : Real.sqrt v.mag_sq * Real.sqrt v.mag_sq = v.mag_sq :=
    Real.mul_self_sqrt (mag_sq_nonneg v)
  unfold normalized mag
  rw [div_mag_sq, hs]
  exact div_self hM.ne'

end Vec3

namespace Sphere

/-- The sphere equation at ray parameter t, written out as the quadratic in t
whose coefficients Sphere::probe computes. -/
theorem intersectsAt_iff (s : Sphere) (r : Ray) (t : ℝ) :
    s.intersectsAt r t ↔
      r.dir.mag_sq * t ^ 2 + 2 * s.qhb r * t + s.qc r = 0 := by
  have key : (r.at t - s.center).dot (r.at t - s.center) - s.radius * s.radius
      = r.dir.mag_sq * t ^ 2 + 2 * s.qhb r * t + s.qc r := by
    simp only [Ray.at, qhb, qc, sep, Vec3.mag_sq, Vec3.dot, Vec3.add_x,
      Vec3.add_y, Vec3.add_z, Vec3.sub_x, Vec3.sub_y, Vec3.sub_z,
      Vec3.smul_x, Vec3.smul_y, Vec3.smul_z]
    ring
  unfold intersectsAt
  constructor
  · intro hI
    rw [← key, hI]
    exact sub_self _
  · intro hP
    have h2 := key
    rw [hP] at h2
    linarith

/-- If the quadratic pinned by (a, hb, c) vanishes at t once a * t + hb is
plus or minus a square root sigma of the discriminant. -/
theorem quadratic_zero_of_shift {a hb c σ t : ℝ} (ha : a ≠ 0)
    (hσ : σ ^ 2 = hb * hb - a * c)
    (h1 : a * t + hb = σ ∨ a * t + hb = -σ) :
    a * t ^ 2 + 2 * hb * t + c = 0 := by
  have h2 : (a * t + hb) ^ 2 = σ ^ 2 := by
    rcases h1 with h | h <;> rw [h] <;> ring
  have h3 : a * (a * t ^ 2 + 2 * hb * t + c) = 0 := by
    linear_combination h2 + hσ
  exact (mul_eq_zero.mp h3).resolve_left ha

/-- a * root1 + hb = -sqrt(discrim). -/
theorem shift_root1 {s : Sphere} {r : Ray} (ha : 0 < r.dir.mag_sq) :
    r.dir.mag_sq * s.root1 r + s.qhb r = -Real.sqrt (s.discrim r) := by
  unfold root1
  field_simp
  ring

/-- a * root2 + hb = sqrt(discrim). -/
theorem shift_root2 {s : Sphere} {r : Ray} (ha : 0 < r.dir.mag_sq) :
    r.dir.mag_sq * s.root2 r + s.qhb r = Real.sqrt (s.discrim r) := by
  unfold root2
  field_simp

/-- Every intersection parameter is one of the two candidate roots, and its
existence forces a nonnegative discriminant. -/
theorem root_of_intersects {s : Sphere} {r : Ray} {t : ℝ}
    (ha : 0 < r.dir.mag_sq) (hI : s.intersectsAt r t) :
    0 ≤ s.discrim r ∧ (t = s.root1 r ∨ t = s.root2 r) := by
  rw [intersectsAt_iff] at hI
  have hsq : (r.dir.mag_sq * t + s.qhb r) ^ 2 = s.discrim r := by
    unfold discrim
    linear_combination r.dir.mag_sq * hI
  have hd : 0 ≤ s.discrim r := hsq ▸ sq_nonneg _
  refine ⟨hd, ?_⟩
  have habs : |r.dir.mag_sq * t + s.qhb r| = Real.sqrt (s.discrim r) := by
    rw [← hsq, Real.sqrt_sq_eq_abs]
  rcases (abs_eq (Real.sqrt_nonneg _)).mp habs with h | h
  · right
    unfold root2
    field_simp
    linarith
  · left
    unfold root1
    field_simp
    linarith

/-- Both candidate roots really intersect the sphere once the discriminant is
nonnegative. -/
theorem intersects_root1 {s : Sphere} {r : Ray}
    (ha : 0 < r.dir.mag_sq) (hd : 0 ≤ s.discrim r) :
    s.intersectsAt r (s.root1 r) := by
  rw [intersectsAt_iff]
  have hσ : Real.sqrt (s.discrim r) ^ 2 = s.qhb r * s.qhb r - r.dir.mag_sq * s.qc r := by
    rw [Real.sq_sqrt hd]
    unfold discrim
    ring
  exact quadratic_zero_of_shift ha.ne' hσ (Or.inr (shift_root1 ha))

/-- Both candidate roots really intersect the sphere once the discriminant is
nonnegative (larger root). -/
theorem intersects_root2 {s : Sphere} {r : Ray}
    (ha : 0 < r.dir.mag_sq) (hd : 0 ≤ s.discrim r) :
    s.intersectsAt r (s.root2 r) := by
  rw [intersectsAt_iff]
  have hσ : Real.sqrt (s.discrim r) ^ 2 = s.qhb r * s.qhb r - r.dir.mag_sq * s.qc r := by
    rw [Real.sq_sqrt hd]
    unfold discrim
    ring
  exact quadratic_zero_of_shift ha.ne' hσ (Or.inl (shift_root2 ha))

/-- The smaller candidate root is at most the larger one. -/
theorem root1_le_root2 {s : Sphere} {r : Ray} (ha : 0 < r.dir.mag_sq) :
    s.root1 r ≤ s.root2 r := by
  unfold root1 root2
  have h := Real.sqrt_nonneg (s.discrim r)
  rw [div_le_div_iff₀ ha ha]
  nlinarith [mul_nonneg h ha.le]

/-- Unfolding a successful Sphere::probe: the hit is at one of the two
candidate roots (the larger only if the smaller is outside the window), lies
in the search window, and carries the ray point and scaled outward normal. -/
theorem probe_some_elim {s : Sphere} {r : Ray} {t_min : ℝ} {t_max : WithTop ℝ}
    {h : Hit} (hp : s.probe r t_min t_max = some h) :
    ¬ s.discrim r < 0 ∧
    (h.t = s.root1 r ∨
      (h.t = s.root2 r ∧
        (s.root1 r < t_min ∨ t_max < (↑(s.root1 r) : WithTop ℝ)))) ∧
    t_min ≤ h.t ∧ (↑h.t : WithTop ℝ) ≤ t_max ∧
    h.p = r.at h.t ∧
    h.normal = (r.at h.t - s.center) / s.radius := by
  unfold probe at hp
  by_cases hc1 : s.discrim r < 0
  · rw [if_pos hc1] at hp
    exact absurd hp (by simp)
  rw [if_neg hc1] at hp
  by_cases hc2 : s.root1 r < t_min ∨ t_max < (↑(s.root1 r) : WithTop ℝ)
  · rw [if_pos hc2] at hp
    by_cases hc3 : s.root2 r < t_min ∨ t_max < (↑(s.root2 r) : WithTop ℝ)
    · rw [if_pos hc3] at hp
      exact absurd hp (by simp)
    · rw [if_neg hc3] at hp
      obtain ⟨ha2, hb2⟩ := not_or.mp hc3
      injection hp with hp
      subst hp
      exact ⟨hc1, Or.inr ⟨rfl, hc2⟩, not_lt.mp ha2, not_lt.mp hb2, rfl, rfl⟩
  · rw [if_neg hc2] at hp
    obtain ⟨ha1, hb1⟩ := not_or.mp hc2
    injection hp with hp
    subst hp
    exact ⟨hc1, Or.inl rfl, not_lt.mp ha1, not_lt.mp hb1, rfl, rfl⟩

/-- Sphere::probe returns the smaller-root hit when the discriminant is
nonnegative and that root lies in the window. -/
theorem probe_eq_some_root1 {s : Sphere} {r : Ray} {t_min : ℝ}
    {t_max : WithTop ℝ} (hd : ¬ s.discrim r < 0)
    (h1 : ¬ (s.root1 r < t_min ∨ t_max < (↑(s.root1 r) : WithTop ℝ))) :
    s.probe r t_min t_max =
      some ⟨r.at (s.root1 r), s.root1 r, (r.at (s.root1 r) - s.center) / s.radius⟩ := by
  unfold probe
  rw [if_neg hd, if_neg h1]

/-- Sphere::probe returns none exactly when no parameter in the search window
satisfies the sphere equation (for a nondegenerate ray direction). -/
theorem probe_none_iff {s : Sphere} {r : Ray} {t_min : ℝ} {t_max : WithTop ℝ}
    (ha : 0 < r.dir.mag_sq) :
    s.probe r t_min t_max = none ↔
      ∀ t : ℝ, t_min ≤ t → (↑t : WithTop ℝ) ≤ t_max → ¬ s.intersectsAt r t := by
  constructor
  · intro hn t ht1 ht2 hI
    obtain ⟨hd, hroot⟩ := root_of_intersects ha hI
    unfold probe at hn
    rw [if_neg (not_lt.mpr hd)] at hn
    by_cases hc2 : s.root1 r < t_min ∨ t_max < (↑(s.root1 r) : WithTop ℝ)
    · rw [if_pos hc2] at hn
      by_cases hc3 : s.root2 r < t_min ∨ t_max < (↑(s.root2 r) : WithTop ℝ)
      · rcases hroot with rfl | rfl
        · rcases hc2 with hlt | hgt
          · exact absurd ht1 (not_le.mpr hlt)
          · exact absurd ht2 (not_le.mpr hgt)
        · rcases hc3 with hlt | hgt
          · exact absurd ht1 (not_le.mpr hlt)
          · exact absurd ht2 (not_le.mpr hgt)
      · rw [if_neg hc3] at hn
        exact absurd hn (by simp)
    · rw [if_neg hc2] at hn
      exact absurd hn (by simp)
  · intro hno
    unfold probe
    by_cases hc1 : s.discrim r < 0
    · rw [if_pos hc1]
    · rw [if_neg hc1]
      by_cases hc2 : s.root1 r < t_min ∨ t_max < (↑(s.root1 r) : WithTop ℝ)
      · rw [if_pos hc2]
        by_cases hc3 : s.root2 r < t_min ∨ t_max < (↑(s.root2 r) : WithTop ℝ)
        · rw [if_pos hc3]
        · exfalso
          obtain ⟨ha2, hb2⟩ := not_or.mp hc3
          exact hno (s.root2 r) (not_lt.mp ha2) (not_lt.mp hb2)
            (intersects_root2 ha (not_lt.mp hc1))
      · exfalso
        obtain ⟨ha1, hb1⟩ := not_or.mp hc2
        exact hno (s.root1 r) (not_lt.mp ha1) (not_lt.mp hb1)
          (intersects_root1 ha (not_lt.mp hc1))

/-- A successful Sphere::probe yields a true intersection that is minimal
among all intersections inside the search window. -/
theorem probe_some_minimal {s : Sphere} {r : Ray} {t_min : ℝ}
    {t_max : WithTop ℝ} {h : Hit} (ha : 0 < r.dir.mag_sq)
    (hp : s.probe r t_min t_max = some h) :
    s.intersectsAt r h.t ∧
      ∀ t : ℝ, t_min ≤ t → (↑t : WithTop ℝ) ≤ t_max →
        s.intersectsAt r t → h.t ≤ t := by
  obtain ⟨hd, hroot, ht1, ht2, hpp, hnn⟩ := probe_some_elim hp
  have hd' : 0 ≤ s.discrim r := not_lt.mp hd
  constructor
  · rcases hroot with he | ⟨he, _⟩ <;> rw [he]
    · exact intersects_root1 ha hd'
    · exact intersects_root2 ha hd'
  · intro t htt1 htt2 hIt
    obtain ⟨_, hrt⟩ := root_of_intersects ha hIt
    have h12 : s.root1 r ≤ s.root2 r := root1_le_root2 ha
    rcases hroot with he | ⟨he, hout⟩
    · rcases hrt with rfl | rfl
      · exact le_of_eq he
      · rw [he]; exact h12
    · rcases hrt with rfl | rfl
      · exfalso
        rcases hout with hlt | hgt
        · exact absurd htt1 (not_le.mpr hlt)
        · exact absurd htt2 (not_le.mpr hgt)
      · exact le_of_eq he

end Sphere

/-- Unfolded form of Metallic::scatter. -/
theorem metallic_scatter_unfold (m : Metallic) (incoming_ray : Ray) (hit : Hit)
    (S : Vec3) :
    m.scatter incoming_ray hit S =
      if ((incoming_ray.dir.normalized.reflected hit.normal) +
            m.roughness • S).dot hit.normal < 0
      then ScatteringResult.Absorbed
      else ScatteringResult.Scattered
        ⟨hit.p, (incoming_ray.dir.normalized.reflected hit.normal) +
          m.roughness • S⟩ m.albedo := rfl

/-- Unfolded form of Lambertian::scatter. -/
theorem lambertian_scatter_unfold (l : Lambertian) (incoming_ray : Ray) (hit : Hit)
    (S : Vec3) :
    l.scatter incoming_ray hit S =
      ScatteringResult.Scattered
        ⟨hit.p,
          if (hit.normal + S).mag < 1 / 100000000 then hit.normal
          else hit.normal + S⟩
        l.albedo := rfl

/-- Evaluating the probe fixture: the discriminant for unitSphere and rayX. -/
theorem unitSphere_discrim_eval : unitSphere.discrim rayX = 1 := by
  norm_num [Sphere.discrim, Sphere.qhb, Sphere.qc, Sphere.sep, unitSphere,
    rayX, Vec3.dot, Vec3.mag_sq]

/-- Evaluating the probe fixture: the smaller candidate root. -/
theorem unitSphere_root1_eval : unitSphere.root1 rayX = 1 := by
  unfold Sphere.root1
  rw [unitSphere_discrim_eval, Real.sqrt_one]
  norm_num [Sphere.qhb, Sphere.sep, unitSphere, rayX, Vec3.dot, Vec3.mag_sq]

/-- Evaluating the probe fixture: the larger candidate root. -/
theorem unitSphere_root2_eval : unitSphere.root2 rayX = 3 := by
  unfold Sphere.root2
  rw [unitSphere_discrim_eval, Real.sqrt_one]
  norm_num [Sphere.qhb, Sphere.sep, unitSphere, rayX, Vec3.dot, Vec3.mag_sq]

/-- Evaluating the probe fixture over the window [0, 10]. -/
theorem unitSphere_probe_0 :
    unitSphere.probe rayX 0 (↑(10 : ℝ)) = some hitX := by
  have hd : ¬ unitSphere.discrim rayX < 0 := by
    rw [unitSphere_discrim_eval]; norm_num
  have h1 : ¬ (unitSphere.root1 rayX < 0 ∨
      (↑(10 : ℝ) : WithTop ℝ) < ↑(unitSphere.root1 rayX)) := by
    rw [unitSphere_root1_eval]
    simp only [WithTop.coe_lt_coe, not_or]
    norm_num
  rw [Sphere.probe_eq_some_root1 hd h1, unitSphere_root1_eval]
  simp only [Option.some.injEq, hitX, Hit.mk.injEq]
  refine ⟨?_, trivial, ?_⟩ <;>
    apply Vec3.ext_xyz <;>
      norm_num [Ray.at, rayX, unitSphere]

/-- Evaluating the probe fixture over the window [1, 10]: the hit parameter
equals the lower bound. -/
theorem unitSphere_probe_1 :
    unitSphere.probe rayX 1 (↑(10 : ℝ)) = some hitX := by
  have hd : ¬ unitSphere.discrim rayX < 0 := by
    rw [unitSphere_discrim_eval]; norm_num
  have h1 : ¬ (unitSphere.root1 rayX < 1 ∨
      (↑(10 : ℝ) : WithTop ℝ) < ↑(unitSphere.root1 rayX)) := by
    rw [unitSphere_root1_eval]
    simp only [WithTop.coe_lt_coe, not_or]
    norm_num
  rw [Sphere.probe_eq_some_root1 hd h1, unitSphere_root1_eval]
  simp only [Option.some.injEq, hitX, Hit.mk.injEq]
  refine ⟨?_, trivial, ?_⟩ <;>
    apply Vec3.ext_xyz <;>
      norm_num [Ray.at, rayX, unitSphere]

/-- Evaluating Metallic::scatter at the grazing fixture: a roughness-0 metal,
the ray along +x and a hit normal along +z scatter to direction (1,0,0). -/
theorem metallic_fixture_eval :
    Metallic.scatter ⟨⟨1, 1, 1⟩, 0⟩ rayPX hitUp 0 =
      ScatteringResult.Scattered ⟨0, ⟨1, 0, 0⟩⟩ ⟨1, 1, 1⟩ := by
  have hrefl : (rayPX.dir.normalized.reflected hitUp.normal) +
      (⟨⟨1, 1, 1⟩, 0⟩ : Metallic).roughness • (0 : Vec3) = ⟨1, 0, 0⟩ := by
    rw [show rayPX.dir = (⟨1, 0, 0⟩ : Vec3) from rfl, Vec3.normalized_unit_x]
    apply Vec3.ext_xyz <;>
      norm_num [Vec3.reflected, Vec3.dot, hitUp]
  rw [metallic_scatter_unfold, hrefl]
  rw [if_neg (by norm_num [Vec3.dot, hitUp])]
  rfl

/-- C1 (amended: the hit parameter satisfies t_min <= t <= t_max, with the
lower comparison non-strict): for a positive-radius sphere and a ray with a
nonzero direction, a returned hit lies in the closed search window, its
point is origin + t * dir, and its normal is (p - center) / radius; a
negative discriminant returns none; both candidate roots outside the window
return none; and when both roots lie inside the window the probe returns the
hit at the smaller root. -/
theorem sphere_probe_contract (s : Sphere) (r : Ray) (t_min : ℝ)
    (t_max : WithTop ℝ) (hrad : 0 < s.radius) (hdir : r.dir ≠ 0) :
    (∀ h : Hit, s.probe r t_min t_max = some h →
      t_min ≤ h.t ∧ (↑h.t : WithTop ℝ) ≤ t_max ∧
      h.p = r.origin + h.t • r.dir ∧
      h.normal = (h.p - s.center) / s.radius) ∧
    (s.discrim r < 0 → s.probe r t_min t_max = none) ∧
    ((s.root1 r < t_min ∨ t_max < (↑(s.root1 r) : WithTop ℝ)) →
      (s.root2 r < t_min ∨ t_max < (↑(s.root2 r) : WithTop ℝ)) →
      s.probe r t_min t_max = none) ∧
    (0 ≤ s.discrim r →
      ¬ (s.root1 r < t_min ∨ t_max < (↑(s.root1 r) : WithTop ℝ)) →
      ¬ (s.root2 r < t_min ∨ t_max < (↑(s.root2 r) : WithTop ℝ)) →
      s.probe r t_min t_max =
        some ⟨r.at (s.root1 r), s.root1 r,
          (r.at (s.root1 r) - s.center) / s.radius⟩ ∧
      s.root1 r ≤ s.root2 r) := by
  have ha : 0 < r.dir.mag_sq := Vec3.mag_sq_pos hdir
  refine ⟨?_, ?_, ?_, ?_⟩
  · intro h hp
    obtain ⟨_, _, ht1, ht2, hpp, hnn⟩ := Sphere.probe_some_elim hp
    refine ⟨ht1, ht2, hpp, ?_⟩
    rw [hpp]
    exact hnn
  · intro hd
    unfold Sphere.probe
    rw [if_pos hd]
  · intro h1 h2
    unfold Sphere.probe
    by_cases hd : s.discrim r < 0
    · rw [if_pos hd]
    · rw [if_neg hd, if_pos h1, if_pos h2]
  · intro hd h1 _h2
    exact ⟨Sphere.probe_eq_some_root1 (not_lt.mpr hd) h1,
      Sphere.root1_le_root2 ha⟩

/-- C1 witness: the probe contract evaluated on the unit sphere at the
origin, probed from (2,0,0) toward it over the window [0, 10]. -/
theorem sphere_probe_contract_witness :
    (0 : ℝ) ≤ hitX.t ∧ (↑hitX.t : WithTop ℝ) ≤ ↑(10 : ℝ) ∧
    hitX.p = rayX.origin + hitX.t • rayX.dir ∧
    hitX.normal = (hitX.p - unitSphere.center) / unitSphere.radius :=
  (sphere_probe_contract unitSphere rayX 0 (↑(10 : ℝ))
      (by norm_num [unitSphere])
      (by norm_num [rayX, Vec3.ext_iff_xyz])).1
    hitX unitSphere_probe_0

/-- C1 counterexample: with t_min = 1 the probe returns the hit whose
parameter is exactly t_min, so the claimed strict bound t_min < hit.t is
false on the code (the code accepts roots with root = t_min). -/
theorem sphere_probe_strict_lower_cex :
    unitSphere.probe rayX 1 (↑(10 : ℝ)) = some hitX ∧
    hitX.t = 1 ∧ ¬ ((1 : ℝ) < hitX.t) :=
  ⟨unitSphere_probe_1, rfl, by norm_num [hitX]⟩

/-- C3 (amended: the polarity is reversed): for a hit produced by
Sphere::probe on a positive-radius sphere, front_facing holds exactly when
the dot product of the outward geometric normal (equivalently of p - center)
with the incoming ray direction is positive, i.e. when the ray leaves the
surface from inside — not when that dot product is negative. -/
theorem front_facing_iff_outward_dot_pos (s : Sphere) (r : Ray) (t_min : ℝ)
    (t_max : WithTop ℝ) (h : Hit) (hrad : 0 < s.radius)
    (hp : s.probe r t_min t_max = some h) :
    h.front_facing r ↔ 0 < (h.p - s.center).dot r.dir := by
  obtain ⟨_, _, _, _, hpp, hnn⟩ := Sphere.probe_some_elim hp
  unfold Hit.front_facing
  rw [hnn, ← hpp, Vec3.div_dot]
  constructor
  · intro hlt
    by_contra hc
    push_neg at hc
    have hle : (h.p - s.center).dot r.dir / s.radius ≤ 0 :=
      div_nonpos_of_nonpos_of_nonneg hc hrad.le
    linarith
  · intro hdp
    exact div_pos hdp hrad

/-- C3 witness: the equivalence evaluated on the probe fixture. -/
theorem front_facing_iff_witness :
    hitX.front_facing rayX ↔ 0 < (hitX.p - unitSphere.center).dot rayX.dir :=
  front_facing_iff_outward_dot_pos unitSphere rayX 1 (↑(10 : ℝ)) hitX
    (by norm_num [unitSphere]) unitSphere_probe_1

/-- C3 counterexample: for the probe-produced hit hitX the outward normal
opposes the incoming ray (their dot product is -1 < 0), yet front_facing is
false — the claimed convention (front exactly when the dot is negative) is
the reverse of the code's. -/
theorem front_facing_sign_cex :
    unitSphere.probe rayX 0 (↑(10 : ℝ)) = some hitX ∧
    hitX.normal.dot rayX.dir < 0 ∧
    ¬ hitX.front_facing rayX := by
  refine ⟨unitSphere_probe_0, ?_, ?_⟩
  · norm_num [hitX, rayX, Vec3.dot]
  · unfold Hit.front_facing
    norm_num [hitX, rayX, Vec3.dot]

/-- C4 (amended: the normal used for refraction is flipped to align with the
incoming ray, its dot product with the ray direction is nonnegative rather
than negative): the refraction ratio of Dielectric::scatter is 1/ior when
the hit is classified front and ior otherwise, and the normal used in the
refraction computation has nonnegative dot product with the ray direction. -/
theorem dielectric_eta_flip_contract (d : Dielectric) (incoming_ray : Ray)
    (hit : Hit) :
    (hit.front_facing incoming_ray →
      d.eta incoming_ray hit = 1 / d.ior) ∧
    (¬ hit.front_facing incoming_ray →
      d.eta incoming_ray hit = d.ior) ∧
    0 ≤ (Dielectric.flipNormal incoming_ray hit).dot incoming_ray.dir := by
  refine ⟨fun h => ?_, fun h => ?_, ?_⟩
  · unfold Dielectric.eta
    rw [if_pos h]
  · unfold Dielectric.eta
    rw [if_neg h]
  · unfold Dielectric.flipNormal
    by_cases h : hit.front_facing incoming_ray
    · rw [if_pos h]
      exact le_of_lt h
    · rw [if_neg h]
      rw [Vec3.neg_dot]
      unfold Hit.front_facing at h
      push_neg at h
      linarith

/-- C4 witness: the contract evaluated for a glass-like dielectric on the
front-facing fixture. -/
theorem dielectric_eta_flip_witness :
    Dielectric.eta ⟨3 / 2⟩ rayUp hitUp = 1 / (3 / 2 : ℝ) ∧
    0 ≤ (Dielectric.flipNormal rayUp hitUp).dot rayUp.dir := by
  have hf : hitUp.front_facing rayUp := by
    unfold Hit.front_facing
    norm_num [hitUp, rayUp, Vec3.dot]
  exact ⟨(dielectric_eta_flip_contract ⟨3 / 2⟩ rayUp hitUp).1 hf,
    (dielectric_eta_flip_contract ⟨3 / 2⟩ rayUp hitUp).2.2⟩

/-- C4 counterexample: on the front-facing fixture the normal used for
refraction has dot product 1 with the incoming direction — it aligns with
the ray instead of opposing it, so the claimed negativity is false. -/
theorem dielectric_flip_normal_cex :
    hitUp.front_facing rayUp ∧
    (Dielectric.flipNormal rayUp hitUp).dot rayUp.dir = 1 ∧
    ¬ (Dielectric.flipNormal rayUp hitUp).dot rayUp.dir < 0 := by
  have hf : hitUp.front_facing rayUp := by
    unfold Hit.front_facing
    norm_num [hitUp, rayUp, Vec3.dot]
  refine ⟨hf, ?_, ?_⟩
  · unfold Dielectric.flipNormal
    rw [if_pos hf]
    norm_num [hitUp, rayUp, Vec3.dot]
  · unfold Dielectric.flipNormal
    rw [if_pos hf]
    norm_num [hitUp, rayUp, Vec3.dot]

/-- C6 (amended: the absorption test is strict — Absorbed exactly when the
perturbed reflection's dot product with the normal is < 0; at exactly 0 the
code scatters): Metallic::scatter absorbs iff the perturbed reflected
direction has strictly negative dot product with the hit normal, and
otherwise scatters from hit.p with attenuation equal to the albedo. -/
theorem metallic_scatter_absorb_iff (m : Metallic) (incoming_ray : Ray)
    (hit : Hit) (S : Vec3) :
    (m.scatter incoming_ray hit S = ScatteringResult.Absorbed ↔
      ((incoming_ray.dir.normalized.reflected hit.normal) +
        m.roughness • S).dot hit.normal < 0) ∧
    (¬ ((incoming_ray.dir.normalized.reflected hit.normal) +
        m.roughness • S).dot hit.normal < 0 →
      m.scatter incoming_ray hit S =
        ScatteringResult.Scattered
          ⟨hit.p, (incoming_ray.dir.normalized.reflected hit.normal) +
            m.roughness • S⟩ m.albedo) := by
  rw [metallic_scatter_unfold]
  by_cases hlt : ((incoming_ray.dir.normalized.reflected hit.normal) +
      m.roughness • S).dot hit.normal < 0
  · rw [if_pos hlt]
    exact ⟨⟨fun _ => hlt, fun _ => rfl⟩, fun hc => absurd hlt hc⟩
  · rw [if_neg hlt]
    exact ⟨⟨fun he => absurd he (by simp), fun hl => absurd hl hlt⟩,
      fun _ => rfl⟩

/-- C6 counterexample: at the grazing fixture the perturbed reflection's dot
product with the normal is exactly 0 (hence <= 0, where the claim demands
Absorbed), yet the code returns Scattered. -/
theorem metallic_scatter_boundary_cex :
    Metallic.scatter ⟨⟨1, 1, 1⟩, 0⟩ rayPX hitUp 0 =
      ScatteringResult.Scattered ⟨0, ⟨1, 0, 0⟩⟩ ⟨1, 1, 1⟩ ∧
    ((rayPX.dir.normalized.reflected hitUp.normal) +
      (⟨⟨1, 1, 1⟩, 0⟩ : Metallic).roughness • (0 : Vec3)).dot hitUp.normal ≤ 0 := by
  refine ⟨metallic_fixture_eval, ?_⟩
  rw [show rayPX.dir = (⟨1, 0, 0⟩ : Vec3) from rfl, Vec3.normalized_unit_x]
  norm_num [Vec3.reflected, Vec3.dot, hitUp]

/-- C7: Lambertian::scatter always returns Scattered (never Absorbed), its
attenuation is exactly the configured albedo, the scattered ray starts at
hit.p, and the direction is normal + S with the near-zero fallback to the
normal below the 1e-8 threshold. -/
theorem lambertian_scatter_contract (l : Lambertian) (incoming_ray : Ray)
    (hit : Hit) (S : Vec3) :
    l.scatter incoming_ray hit S =
      ScatteringResult.Scattered
        ⟨hit.p,
          if (hit.normal + S).mag < 1 / 100000000 then hit.normal
          else hit.normal + S⟩
        l.albedo ∧
    l.scatter incoming_ray hit S ≠ ScatteringResult.Absorbed := by
  rw [lambertian_scatter_unfold]
  exact ⟨rfl, by simp⟩

/-- C8: a roughness-0 metal scatters deterministically — the result does not
depend on the random draw — and any scattered direction is the mirror
reflection d - 2 (d . n) n of the normalized incoming direction about the
hit normal; for a unit normal this obeys the law of reflection (the normal
component flips sign, the magnitude is preserved). -/
theorem metallic_roughness_zero_deterministic (m : Metallic)
    (hm : m.roughness = 0) (incoming_ray : Ray) (hit : Hit) (S1 S2 : Vec3) :
    m.scatter incoming_ray hit S1 = m.scatter incoming_ray hit S2 ∧
    (∀ ray2 attenuation,
      m.scatter incoming_ray hit S1 =
        ScatteringResult.Scattered ray2 attenuation →
      ray2.dir = incoming_ray.dir.normalized -
        (2 * (incoming_ray.dir.normalized.dot hit.normal)) • hit.normal ∧
      (hit.normal.mag_sq = 1 →
        ray2.dir.dot hit.normal = -(incoming_ray.dir.normalized.dot hit.normal) ∧
        ray2.dir.mag_sq = incoming_ray.dir.normalized.mag_sq)) := by
  have hz1 : m.roughness • S1 = (0 : Vec3) := by
    rw [hm]
    exact Vec3.zero_smul_vec S1
  have hz2 : m.roughness • S2 = (0 : Vec3) := by
    rw [hm]
    exact Vec3.zero_smul_vec S2
  rw [metallic_scatter_unfold m incoming_ray hit S1,
    metallic_scatter_unfold m incoming_ray hit S2, hz1, hz2]
  refine ⟨rfl, ?_⟩
  intro ray2 attenuation he
  rw [Vec3.add_zero_vec] at he
  by_cases hlt : (incoming_ray.dir.normalized.reflected hit.normal).dot hit.normal < 0
  · rw [if_pos hlt] at he
    exact absurd he (by simp)
  · rw [if_neg hlt] at he
    have h2 := (ScatteringResult.Scattered.injEq _ _ _ _).mp he
    obtain ⟨hr, _⟩ := h2
    subst hr
    refine ⟨rfl, fun hn => ⟨?_, ?_⟩⟩
    · exact Vec3.reflected_dot _ _ hn
    · exact Vec3.reflected_mag_sq _ _ hn

/-- C8 witness: determinism and the mirror formula evaluated at the grazing
fixture with two different random draws. -/
theorem metallic_roughness_zero_witness :
    Metallic.scatter ⟨⟨1, 1, 1⟩, 0⟩ rayPX hitUp 0 =
      Metallic.scatter ⟨⟨1, 1, 1⟩, 0⟩ rayPX hitUp ⟨1, 2, 3⟩ ∧
    (⟨0, ⟨1, 0, 0⟩⟩ : Ray).dir = rayPX.dir.normalized -
      (2 * (rayPX.dir.normalized.dot hitUp.normal)) • hitUp.normal :=
  ⟨(metallic_roughness_zero_deterministic ⟨⟨1, 1, 1⟩, 0⟩ rfl rayPX hitUp
      0 ⟨1, 2, 3⟩).1,
   ((metallic_roughness_zero_deterministic ⟨⟨1, 1, 1⟩, 0⟩ rfl rayPX hitUp
      0 ⟨1, 2, 3⟩).2 ⟨0, ⟨1, 0, 0⟩⟩ ⟨1, 1, 1⟩ metallic_fixture_eval).1⟩

/-- C9: the radiance integrator with a remaining-bounce budget of 0 returns
black for every random stream, scene and ray. -/
theorem color_ray_zero_budget (rnd : ℕ → ScatterDraws) (scene : Scene)
    (r : Ray) : color_ray rnd scene r 0 = 0 := rfl

/-- The f32 cube root of 1/8 is 1/2. -/
theorem cbrt_eighth : cbrt ((1 : ℝ) / 8) = 1 / 2 := by
  unfold cbrt
  rw [show (1 : ℝ) / 8 = ((1 : ℝ) / 2) ^ (3 : ℕ) by norm_num,
    ← Real.rpow_natCast ((1 : ℝ) / 2) 3,
    ← Real.rpow_mul (by norm_num : (0 : ℝ) ≤ 1 / 2)]
  norm_num

/-- C5: at the concrete draws u = 1/8, g = (1,0,0) the sampler returns
(2,0,0), a vector of magnitude 2 — outside the unit ball. The code divides
the unit direction by the cube root of u instead of multiplying by it. -/
theorem uniformInSphere_escapes_ball :
    uniformInSphere ((1 : ℝ) / 8) ⟨1, 0, 0⟩ = ⟨2, 0, 0⟩ ∧
    (uniformInSphere ((1 : ℝ) / 8) ⟨1, 0, 0⟩).mag = 2 ∧
    ¬ ((uniformInSphere ((1 : ℝ) / 8) ⟨1, 0, 0⟩).mag ≤ 1) := by
  have h1 : uniformInSphere ((1 : ℝ) / 8) ⟨1, 0, 0⟩ = ⟨2, 0, 0⟩ := by
    unfold uniformInSphere
    rw [Vec3.normalized_unit_x, cbrt_eighth]
    apply Vec3.ext_xyz <;> norm_num
  have h2 : ((⟨2, 0, 0⟩ : Vec3)).mag = 2 := by
    have h3 : ((⟨2, 0, 0⟩ : Vec3)).mag_sq = (2 : ℝ) ^ 2 := by
      norm_num [Vec3.mag_sq, Vec3.dot]
    unfold Vec3.mag
    rw [h3, Real.sqrt_sq (by norm_num : (0 : ℝ) ≤ 2)]
  refine ⟨h1, ?_, ?_⟩
  · rw [h1, h2]
  · rw [h1, h2]
    norm_num

/-- The fields of Camera::new, with the viewport scale factors abstracted. -/
theorem Camera.new_fields (aspect fovy aperture focus_dist : ℝ)
    (from_ to_ up : Vec3) :
    ∃ hscale vscale : ℝ,
      (Camera.new aspect fovy aperture focus_dist from_ to_ up).w =
        (from_ - to_).normalized ∧
      (Camera.new aspect fovy aperture focus_dist from_ to_ up).u =
        (up.cross ((from_ - to_).normalized)).normalized ∧
      (Camera.new aspect fovy aperture focus_dist from_ to_ up).v =
        ((from_ - to_).normalized).cross
          ((up.cross ((from_ - to_).normalized)).normalized) ∧
      (Camera.new aspect fovy aperture focus_dist from_ to_ up).origin = from_ ∧
      (Camera.new aspect fovy aperture focus_dist from_ to_ up).horiz =
        hscale • (Camera.new aspect fovy aperture focus_dist from_ to_ up).u ∧
      (Camera.new aspect fovy aperture focus_dist from_ to_ up).vert =
        vscale • (Camera.new aspect fovy aperture focus_dist from_ to_ up).v ∧
      (Camera.new aspect fovy aperture focus_dist from_ to_ up).lower_left =
        from_ -
          (Camera.new aspect fovy aperture focus_dist from_ to_ up).horiz / (2 : ℝ) -
          (Camera.new aspect fovy aperture focus_dist from_ to_ up).vert / (2 : ℝ) -
          focus_dist • (Camera.new aspect fovy aperture focus_dist from_ to_ up).w :=
  ⟨aspect * (2 * Real.tan (fovy * Real.pi / 180 / 2)) * focus_dist,
   2 * Real.tan (fovy * Real.pi / 180 / 2) * focus_dist,
   rfl, rfl, rfl, rfl, rfl, rfl, rfl⟩

/-- C10: for every camera, screen coordinate and lens sample, the ray's
origin plus its direction — the point the ray reaches at parameter 1 —
equals lower_left + su * horiz + sv * vert, so it does not depend on the
sampled lens offset and all defocus rays for one screen coordinate converge
there; for a camera built by Camera::new from a distinct eye and target with
a nondegenerate up direction, that point lies on the focus plane: its signed
offset from the eye along the view axis w is exactly -focus_dist. -/
theorem camera_ray_focus_plane (aspect fovy aperture focus_dist : ℝ)
    (from_ to_ up : Vec3) (su sv : ℝ) (hft : from_ ≠ to_)
    (hcross : up.cross ((from_ - to_).normalized) ≠ 0) :
    (∀ (c : Camera) (lens : Vec3),
      (c.ray su sv lens).origin + (c.ray su sv lens).dir =
        c.lower_left + su • c.horiz + sv • c.vert ∧
      (c.ray su sv lens).at 1 = c.lower_left + su • c.horiz + sv • c.vert) ∧
    (∀ (lens1 lens2 : Vec3) (c : Camera),
      (c.ray su sv lens1).at 1 = (c.ray su sv lens2).at 1) ∧
    (∀ lens : Vec3,
      (((Camera.new aspect fovy aperture focus_dist from_ to_ up).ray
          su sv lens).at 1 - from_).dot ((from_ - to_).normalized) =
        -focus_dist) := by
  have hpart1 : ∀ (c : Camera) (lens : Vec3),
      (c.ray su sv lens).origin + (c.ray su sv lens).dir =
        c.lower_left + su • c.horiz + sv • c.vert := by
    intro c lens
    apply Vec3.ext_xyz <;>
      simp only [Camera.ray, Vec3.add_x, Vec3.add_y, Vec3.add_z, Vec3.sub_x,
        Vec3.sub_y, Vec3.sub_z, Vec3.smul_x, Vec3.smul_y, Vec3.smul_z] <;>
      ring
  have hpart1b : ∀ (c : Camera) (lens : Vec3),
      (c.ray su sv lens).at 1 = c.lower_left + su • c.horiz + sv • c.vert := by
    intro c lens
    apply Vec3.ext_xyz <;>
      simp only [Ray.at, Camera.ray, Vec3.add_x, Vec3.add_y, Vec3.add_z,
        Vec3.sub_x, Vec3.sub_y, Vec3.sub_z, Vec3.smul_x, Vec3.smul_y,
        Vec3.smul_z] <;>
      ring
  refine ⟨fun c lens => ⟨hpart1 c lens, hpart1b c lens⟩,
    fun lens1 lens2 c => (hpart1b c lens1).trans (hpart1b c lens2).symm, ?_⟩
  intro lens
  obtain ⟨hs, vs, hwF, huF, hvF, hoF, hhF, hvtF, hllF⟩ :=
    Camera.new_fields aspect fovy aperture focus_dist from_ to_ up
  have hsub : from_ - to_ ≠ 0 := by
    intro hz
    exact hft ((Vec3.sub_eq_zero_iff_vec from_ to_).mp hz)
  have hww : ((from_ - to_).normalized).dot ((from_ - to_).normalized) = 1 :=
    Vec3.normalized_mag_sq hsub
  have huw : ((Camera.new aspect fovy aperture focus_dist from_ to_ up).u).dot
      ((from_ - to_).normalized) = 0 := by
    rw [huF]
    unfold Vec3.normalized
    rw [Vec3.div_dot, Vec3.cross_dot_right]
    exact zero_div _
  have hvw : ((Camera.new aspect fovy aperture focus_dist from_ to_ up).v).dot
      ((from_ - to_).normalized) = 0 := by
    rw [hvF]
    exact Vec3.cross_dot_left _ _
  rw [hpart1b, hllF, hhF, hvtF, hwF]
  simp only [Vec3.sub_dot, Vec3.add_dot, Vec3.smul_dot, Vec3.div_dot, huw,
    hvw, hww]
  ring

/-- C10 witness: the focus-plane identity and lens-independence evaluated on
a concrete thin-lens camera. -/
theorem camera_ray_focus_witness :
    (((Camera.new (16 / 9) 20 2 1 ⟨1, 0, 0⟩ 0 ⟨0, 1, 0⟩).ray (1 / 3) (1 / 4)
        ⟨1, 2, 3⟩).at 1 - ⟨1, 0, 0⟩).dot
      (((⟨1, 0, 0⟩ : Vec3) - 0).normalized) = -1 ∧
    ((Camera.new (16 / 9) 20 2 1 ⟨1, 0, 0⟩ 0 ⟨0, 1, 0⟩).ray (1 / 3) (1 / 4)
        ⟨1, 2, 3⟩).at 1 =
      ((Camera.new (16 / 9) 20 2 1 ⟨1, 0, 0⟩ 0 ⟨0, 1, 0⟩).ray (1 / 3) (1 / 4)
        ⟨4, 5, 6⟩).at 1 := by
  have hft : (⟨1, 0, 0⟩ : Vec3) ≠ (0 : Vec3) := by
    norm_num [Vec3.ext_iff_xyz]
  have h1 : ((⟨1, 0, 0⟩ : Vec3) - 0) = ⟨1, 0, 0⟩ := by
    apply Vec3.ext_xyz <;> simp
  have hcross : (⟨0, 1, 0⟩ : Vec3).cross
      (((⟨1, 0, 0⟩ : Vec3) - 0).normalized) ≠ 0 := by
    rw [h1, Vec3.normalized_unit_x]
    norm_num [Vec3.cross, Vec3.ext_iff_xyz]
  have H := camera_ray_focus_plane (16 / 9) 20 2 1 ⟨1, 0, 0⟩ 0 ⟨0, 1, 0⟩
    (1 / 3) (1 / 4) hft hcross
  exact ⟨H.2.2 ⟨1, 2, 3⟩, H.2.1 ⟨1, 2, 3⟩ ⟨4, 5, 6⟩ _⟩

/-- Invariant of the Scene::probe loop: starting from an upper bound closest
and an accumulator cur whose hit (when present) sits exactly at closest, the
loop returns none exactly when the accumulator was empty and no remaining
entry intersects within [t_min, closest]; and a returned hit is bounded by
closest, minimal among all remaining entries' intersections in the window,
and either is the accumulator or originates (point, normal and material
pairing included) from one of the remaining entries. -/
theorem Scene.probeLoop_spec (r : Ray) (t_min : ℝ) (ha : 0 < r.dir.mag_sq) :
    ∀ (pairs : List (Sphere × Material)) (closest : WithTop ℝ)
      (cur : Option (Hit × Material)),
      (∀ h m, cur = some (h, m) → (↑h.t : WithTop ℝ) = closest) →
      (Scene.probeLoop r t_min pairs closest cur = none →
        cur = none ∧
        ∀ p ∈ pairs, ∀ t : ℝ, ¬ p.1.hitWithin r t_min closest t) ∧
      (∀ h m, Scene.probeLoop r t_min pairs closest cur = some (h, m) →
        (↑h.t : WithTop ℝ) ≤ closest ∧
        (∀ p ∈ pairs, ∀ t : ℝ, p.1.hitWithin r t_min closest t → h.t ≤ t) ∧
        (cur = some (h, m) ∨
          ∃ p ∈ pairs, m = p.2 ∧ p.1.hitWithin r t_min closest h.t ∧
            h.p = r.at h.t ∧
            h.normal = (r.at h.t - p.1.center) / p.1.radius)) := by
  intro pairs
  induction pairs with
  | nil =>
    intro closest cur hinv
    constructor
    · intro hn
      refine ⟨hn, ?_⟩
      intro p hp
      exact absurd hp (List.not_mem_nil p)
    · intro h m he
      have hcur : cur = some (h, m) := he
      refine ⟨le_of_eq (hinv h m hcur), ?_, Or.inl hcur⟩
      intro p hp
      exact absurd hp (List.not_mem_nil p)
  | cons pm rest ih =>
    obtain ⟨o, m0⟩ := pm
    intro closest cur hinv
    cases hop : o.probe r t_min closest with
    | some hit =>
      have hstep : Scene.probeLoop r t_min ((o, m0) :: rest) closest cur =
          Scene.probeLoop r t_min rest (↑hit.t) (some (hit, m0)) := by
        simp only [Scene.probeLoop, hop]
      obtain ⟨hdneg, hroot, ht1, ht2, hpp, hnn⟩ := Sphere.probe_some_elim hop
      obtain ⟨hI, hmin⟩ := Sphere.probe_some_minimal ha hop
      have hinv2 : ∀ h m, (some (hit, m0) : Option (Hit × Material)) = some (h, m) →
          (↑h.t : WithTop ℝ) = (↑hit.t : WithTop ℝ) := by
        intro h m he
        injection he with he2
        rw [Prod.mk.injEq] at he2
        obtain ⟨rfl, rfl⟩ := he2
        rfl
      constructor
      · intro hn
        rw [hstep] at hn
        obtain ⟨hc, _⟩ := (ih (↑hit.t) (some (hit, m0)) hinv2).1 hn
        exact absurd hc (by simp)
      · intro h m he
        rw [hstep] at he
        obtain ⟨hle, hminrest, hprov⟩ := (ih (↑hit.t) (some (hit, m0)) hinv2).2 h m he
        have hlecl : (↑h.t : WithTop ℝ) ≤ closest := le_trans hle ht2
        have hht : h.t ≤ hit.t := WithTop.coe_le_coe.mp hle
        refine ⟨hlecl, ?_, ?_⟩
        · intro p hp t hw
          rcases List.mem_cons.mp hp with rfl | hp2
          · exact le_trans hht (hmin t hw.1 hw.2.1 hw.2.2)
          · rcases le_or_lt t hit.t with hth | hth
            · exact hminrest p hp2 t ⟨hw.1, WithTop.coe_le_coe.mpr hth, hw.2.2⟩
            · exact le_trans hht hth.le
        · rcases hprov with heq | ⟨p, hp, hm, hwit, hppv, hnnv⟩
          · injection heq with he2
            rw [Prod.mk.injEq] at he2
            obtain ⟨rfl, rfl⟩ := he2
            right
            exact ⟨(o, m0), List.mem_cons_self _ _, rfl, ⟨ht1, ht2, hI⟩,
              hpp, hnn⟩
          · right
            refine ⟨p, List.mem_cons_of_mem _ hp, hm, ?_, hppv, hnnv⟩
            exact ⟨hwit.1, le_trans hwit.2.1 ht2, hwit.2.2⟩
    | none =>
      have hstep : Scene.probeLoop r t_min ((o, m0) :: rest) closest cur =
          Scene.probeLoop r t_min rest closest cur := by
        simp only [Scene.probeLoop, hop]
      have hnone := (Sphere.probe_none_iff ha).mp hop
      constructor
      · intro hn
        rw [hstep] at hn
        obtain ⟨hc, hrest⟩ := (ih closest cur hinv).1 hn
        refine ⟨hc, ?_⟩
        intro p hp t hw
        rcases List.mem_cons.mp hp with rfl | hp2
        · exact hnone t hw.1 hw.2.1 hw.2.2
        · exact hrest p hp2 t hw
      · intro h m he
        rw [hstep] at he
        obtain ⟨hle, hminrest, hprov⟩ := (ih closest cur hinv).2 h m he
        refine ⟨hle, ?_, ?_⟩
        · intro p hp t hw
          rcases List.mem_cons.mp hp with rfl | hp2
          · exact absurd hw.2.2 (hnone t hw.1 hw.2.1)
          · exact hminrest p hp2 t hw
        · rcases hprov with heq | ⟨p, hp, hm, hwit, hppv, hnnv⟩
          · exact Or.inl heq
          · exact Or.inr ⟨p, List.mem_cons_of_mem _ hp, hm, hwit, hppv, hnnv⟩

/-- C2: Scene::probe returns none exactly when no entry intersects the ray
inside the closed window [t_min, t_max]; otherwise the returned hit is a true
intersection in the window with the globally smallest parameter among all
entries' intersections, and the returned material is the one stored at the
same index as the sphere that produced the hit (whose point and outward
normal the hit carries). -/
theorem scene_probe_globally_nearest (sc : Scene) (r : Ray) (t_min : ℝ)
    (t_max : WithTop ℝ) (hdir : r.dir ≠ 0)
    (hlen : sc.objects.length = sc.materials.length) :
    (sc.probe r t_min t_max = none ↔
      ∀ (i : ℕ) (hi : i < sc.objects.length) (t : ℝ),
        ¬ (sc.objects.get ⟨i, hi⟩).hitWithin r t_min t_max t) ∧
    (∀ h m, sc.probe r t_min t_max = some (h, m) →
      t_min ≤ h.t ∧ (↑h.t : WithTop ℝ) ≤ t_max ∧
      (∀ (i : ℕ) (hi : i < sc.objects.length) (t : ℝ),
        (sc.objects.get ⟨i, hi⟩).hitWithin r t_min t_max t → h.t ≤ t) ∧
      (∃ (i : ℕ) (hi : i < sc.objects.length),
        m = sc.materials.get ⟨i, hlen ▸ hi⟩ ∧
        (sc.objects.get ⟨i, hi⟩).hitWithin r t_min t_max h.t ∧
        h.p = r.at h.t ∧
        h.normal = (r.at h.t - (sc.objects.get ⟨i, hi⟩).center) /
          (sc.objects.get ⟨i, hi⟩).radius)) := by
  have ha : 0 < r.dir.mag_sq := Vec3.mag_sq_pos hdir
  have hinv0 : ∀ h m, (none : Option (Hit × Material)) = some (h, m) →
      (↑h.t : WithTop ℝ) = t_max := by
    intro h m he
    exact absurd he (by simp)
  have hzlen : (sc.objects.zip sc.materials).length = sc.objects.length := by
    rw [List.length_zip, hlen, min_self]
  have hmem : ∀ (i : ℕ) (hi : i < sc.objects.length),
      (sc.objects.get ⟨i, hi⟩, sc.materials.get ⟨i, hlen ▸ hi⟩) ∈
        sc.objects.zip sc.materials := by
    intro i hi
    have hiz : i < (sc.objects.zip sc.materials).length := by
      rw [hzlen]
      exact hi
    exact List.mem_iff_get.mpr ⟨⟨i, hiz⟩, List.get_zip⟩
  constructor
  · constructor
    · intro hn i hi t hw
      have hspec := (Scene.probeLoop_spec r t_min ha
        (sc.objects.zip sc.materials) t_max none hinv0).1 hn
      exact hspec.2 _ (hmem i hi) t hw
    · intro hno
      cases hq : sc.probe r t_min t_max with
      | none => rfl
      | some pr =>
        obtain ⟨h, m⟩ := pr
        exfalso
        have hspec := (Scene.probeLoop_spec r t_min ha
          (sc.objects.zip sc.materials) t_max none hinv0).2 h m hq
        rcases hspec.2.2 with heq | ⟨p, hp, hm, hwit, _, _⟩
        · exact absurd heq (by simp)
        · obtain ⟨n, hg⟩ := List.mem_iff_get.mp hp
          have hn1 : (n : ℕ) < sc.objects.length := by
            rw [← hzlen]
            exact n.isLt
          have hv := @List.get_zip _ _ sc.objects sc.materials n
          rw [hg] at hv
          apply hno (n : ℕ) hn1 h.t
          rw [hv] at hwit
          exact hwit
  · intro h m hq
    have hspec := (Scene.probeLoop_spec r t_min ha
      (sc.objects.zip sc.materials) t_max none hinv0).2 h m hq
    obtain ⟨hle, hminz, hprov⟩ := hspec
    rcases hprov with heq | ⟨p, hp, hm, hwit, hppv, hnnv⟩
    · exact absurd heq (by simp)
    · obtain ⟨n, hg⟩ := List.mem_iff_get.mp hp
      have hn1 : (n : ℕ) < sc.objects.length := by
        rw [← hzlen]
        exact n.isLt
      have hv := @List.get_zip _ _ sc.objects sc.materials n
      rw [hg] at hv
      refine ⟨hwit.1, hwit.2.1, ?_, ?_⟩
      · intro i hi t hw
        exact hminz _ (hmem i hi) t hw
      · refine ⟨(n : ℕ), hn1, ?_, ?_, hppv, ?_⟩
        · rw [hm, hv]
        · rw [hv] at hwit
          exact hwit
        · rw [hv] at hnnv
          exact hnnv

/-- Evaluating Scene::probe on the one-entry fixture scene. -/
theorem sceneX_probe_eval :
    sceneX.probe rayX 0 (↑(10 : ℝ)) =
      some (hitX, Material.lambertian ⟨⟨1, 1, 1⟩⟩) := by
  unfold Scene.probe sceneX
  simp only [List.zip, List.zipWith, Scene.probeLoop, unitSphere_probe_0]

/-- C2 witness: the scene contract evaluated on the one-entry fixture scene,
its probe returning the hit at parameter 1 paired with the sole material. -/
theorem scene_probe_witness :
    (0 : ℝ) ≤ hitX.t ∧ (↑hitX.t : WithTop ℝ) ≤ ↑(10 : ℝ) ∧
    (∀ (i : ℕ) (hi : i < sceneX.objects.length) (t : ℝ),
      (sceneX.objects.get ⟨i, hi⟩).hitWithin rayX 0 (↑(10 : ℝ)) t →
        hitX.t ≤ t) ∧
    (∃ (i : ℕ) (hi : i < sceneX.objects.length),
      Material.lambertian ⟨⟨1, 1, 1⟩⟩ = sceneX.materials.get ⟨i, hi⟩ ∧
      (sceneX.objects.get ⟨i, hi⟩).hitWithin rayX 0 (↑(10 : ℝ)) hitX.t ∧
      hitX.p = rayX.at hitX.t ∧
      hitX.normal = (rayX.at hitX.t - (sceneX.objects.get ⟨i, hi⟩).center) /
        (sceneX.objects.get ⟨i, hi⟩).radius) :=
  (scene_probe_globally_nearest sceneX rayX 0 (↑(10 : ℝ))
      (by norm_num [rayX, Vec3.ext_iff_xyz]) rfl).2 hitX
    (Material.lambertian ⟨⟨1, 1, 1⟩⟩) sceneX_probe_eval

/-- C6 witness: the absorption characterization evaluated at the grazing
fixture, where the boundary dot product is 0 and the metal scatters. -/
theorem metallic_scatter_absorb_iff_witness :
    (Metallic.scatter ⟨⟨1, 1, 1⟩, 0⟩ rayPX hitUp 0 =
        ScatteringResult.Absorbed ↔
      ((rayPX.dir.normalized.reflected hitUp.normal) +
        (⟨⟨1, 1, 1⟩, 0⟩ : Metallic).roughness • (0 : Vec3)).dot
          hitUp.normal < 0) ∧
    (¬ ((rayPX.dir.normalized.reflected hitUp.normal) +
        (⟨⟨1, 1, 1⟩, 0⟩ : Metallic).roughness • (0 : Vec3)).dot
          hitUp.normal < 0 →
      Metallic.scatter ⟨⟨1, 1, 1⟩, 0⟩ rayPX hitUp 0 =
        ScatteringResult.Scattered
          ⟨hitUp.p, (rayPX.dir.normalized.reflected hitUp.normal) +
            (⟨⟨1, 1, 1⟩, 0⟩ : Metallic).roughness • (0 : Vec3)⟩
          ⟨1, 1, 1⟩) :=
  metallic_scatter_absorb_iff ⟨⟨1, 1, 1⟩, 0⟩ rayPX hitUp 0

/-- C7 witness: the Lambertian contract evaluated at a concrete albedo, ray,
hit and on-sphere draw. -/
theorem lambertian_scatter_contract_witness :
    Lambertian.scatter ⟨⟨1, 1, 1⟩⟩ rayPX hitUp ⟨0, 0, 1⟩ =
      ScatteringResult.Scattered
        ⟨hitUp.p,
          if (hitUp.normal + ⟨0, 0, 1⟩).mag < 1 / 100000000 then hitUp.normal
          else hitUp.normal + ⟨0, 0, 1⟩⟩
        ⟨1, 1, 1⟩ ∧
    Lambertian.scatter ⟨⟨1, 1, 1⟩⟩ rayPX hitUp ⟨0, 0, 1⟩ ≠
      ScatteringResult.Absorbed :=
  lambertian_scatter_contract ⟨⟨1, 1, 1⟩⟩ rayPX hitUp ⟨0, 0, 1⟩

end Sunbeam
